import Mathlib

/-!
Shallow embedding of the `aescbc` Go library (streaming AES-CBC
encryptor/decryptor with PKCS7 padding).

Bytes are modelled as `Nat`; Go byte slices become `List Nat`.  The external
AES block primitive (`crypto/aes`, out of scope per the design) is an abstract
parameter `E : List Nat → List Nat` (one-block permutation); the CBC chaining
performed by `crypto/cipher.NewCBCEncrypter` / `NewCBCDecrypter` is modelled
explicitly (xor with the chain value, then the block permutation), with the
chain value threaded through the state as those stdlib objects do internally.

A Go runtime panic (out-of-range slice expression) is modelled as `none` of an
`Option` result.  Go `error` results are modelled by `GoErr`.
-/

namespace Aescbc

/-- The error values surfaced by the library: write-after-close, the
"invalid padding" error from `Pkcs7Unpad`, the "not enough bytes" error
from `AESCBCDecryptor.Close`, and `io.EOF` returned by `Read`. -/
inductive GoErr where
  | closedStream
  | paddingError
  | insufficientData
  | eof
deriving DecidableEq

instance {ε α : Type} [DecidableEq ε] [DecidableEq α] : DecidableEq (Except ε α) := fun x y =>
  match x, y with
  | Except.ok a, Except.ok b =>
    if h : a = b then Decidable.isTrue (by rw [h])
    else Decidable.isFalse (fun hc => by cases hc; exact h rfl)
  | Except.error a, Except.error b =>
    if h : a = b then Decidable.isTrue (by rw [h])
    else Decidable.isFalse (fun hc => by cases hc; exact h rfl)
  | Except.ok _, Except.error _ => Decidable.isFalse (fun hc => by cases hc)
  | Except.error _, Except.ok _ => Decidable.isFalse (fun hc => by cases hc)

/-- `Pkcs7Pad` from the source: `r := len(input) % blockSize`,
`pl := blockSize - r`, then append `pl` copies of `byte(pl)`. -/
def pkcs7Pad (input : List Nat) (blockSize : Nat) : List Nat :=
  input ++ List.replicate (blockSize - input.length % blockSize)
    ((blockSize - input.length % blockSize) % 256)

/-- `checkPaddingIsValid` from the source, with `error`/`nil` rendered as
`false`/`true`: the input must be at least `paddingLength` long and its last
`paddingLength` bytes must all equal `paddingLength`. -/
def checkPaddingIsValid (input : List Nat) (paddingLength : Nat) : Bool :=
  if input.length < paddingLength then false
  else (input.drop (input.length - paddingLength)).all (fun pc => pc == paddingLength)

/-- `Pkcs7Unpad` from the source: empty input yields `(nil, nil)`; otherwise
the last byte is read as the padding count `pl`, validated by
`checkPaddingIsValid`, and the last `pl` bytes are removed. -/
def pkcs7Unpad (input : List Nat) : Except GoErr (List Nat) :=
  if input.length = 0 then Except.ok []
  else
    let pl := input.getLastD 0
    if checkPaddingIsValid input pl then Except.ok (input.take (input.length - pl))
    else Except.error GoErr.paddingError

/-- Overwrite the final byte of a buffer with `v` (the tampering operation of
the padding tamper-detection property). -/
def tamperLast (b : List Nat) (v : Nat) : List Nat :=
  b.dropLast ++ [v]

/-- Byte-wise xor of two equal-length blocks, as CBC mode combines a block
with the chain value. -/
def xorBlock (a b : List Nat) : List Nat :=
  List.zipWith Nat.xor a b

/-- CBC encryption of a whole-block byte sequence, 16 bytes at a time, with
explicit fuel (the fuel is set to the byte length, which bounds the block
count).  Each step emits `c = E (chain xor block)` and chains `c` forward,
exactly as `crypto/cipher`'s CBC encrypter does. -/
def cbcEncAux (E : List Nat → List Nat) : Nat → List Nat → List Nat → List Nat × List Nat
  | _, chain, [] => ([], chain)
  | 0, chain, _ :: _ => ([], chain)
  | fuel + 1, chain, x :: xs =>
    let c := E (xorBlock chain ((x :: xs).take 16))
    let rest := cbcEncAux E fuel c ((x :: xs).drop 16)
    (c ++ rest.1, rest.2)

/-- CBC-encrypt `p` (a whole number of 16-byte blocks) with chain seed
`chain`; returns the ciphertext together with the final chain value. -/
def cbcEnc (E : List Nat → List Nat) (chain p : List Nat) : List Nat × List Nat :=
  cbcEncAux E p.length chain p

/-- CBC decryption with explicit fuel: each step emits
`D block xor chain` and chains the ciphertext block forward, exactly as
`crypto/cipher`'s CBC decrypter does. -/
def cbcDecAux (D : List Nat → List Nat) : Nat → List Nat → List Nat → List Nat × List Nat
  | _, chain, [] => ([], chain)
  | 0, chain, _ :: _ => ([], chain)
  | fuel + 1, chain, x :: xs =>
    let cb := (x :: xs).take 16
    let pt := xorBlock (D cb) chain
    let rest := cbcDecAux D fuel cb ((x :: xs).drop 16)
    (pt ++ rest.1, rest.2)

/-- CBC-decrypt `p` (a whole number of 16-byte blocks) with chain seed
`chain`; returns the plaintext together with the final chain value. -/
def cbcDec (D : List Nat → List Nat) (chain p : List Nat) : List Nat × List Nat :=
  cbcDecAux D p.length chain p

/-- The mutable state of an `AESCBCEncryptor`: the two overflow buffers, the
CBC chain value held inside the `cipher.BlockMode`, and the closed flag.
The key and IV fields are immutable after construction and are absorbed into
`E` and the initial chain value. -/
structure EncState where
  inputoverflow : List Nat
  outputoverflow : List Nat
  chain : List Nat
  isClosed : Bool
deriving DecidableEq

/-- A freshly constructed encryptor (`NewAESCBCEncryptor`): empty overflow
buffers, chain seeded with the IV, open. -/
def encInit (iv : List Nat) : EncState :=
  { inputoverflow := [], outputoverflow := [], chain := iv, isClosed := false }

/-- `AESCBCEncryptor.Write`.  Returns `none` for the Go runtime panic that
occurs in the block-aligned branch when the combined buffer is empty
(`p[len(p)-16:]` with `len(p) = 0`); otherwise `some (n, err, s')` mirroring
Go's `(n, err)` return plus the updated receiver. -/
def encWrite (E : List Nat → List Nat) (s : EncState) (input : List Nat) :
    Option (Nat × Option GoErr × EncState) :=
  if s.isClosed then
    some (0, some GoErr.closedStream, s)
  else
    let p := s.inputoverflow ++ input
    if p.length % 16 ≠ 0 then
      let sizeFullBlocks := p.length / 16 * 16
      let body := p.take sizeFullBlocks
      let res := cbcEnc E s.chain body
      some (body.length, none,
        { s with inputoverflow := p.drop sizeFullBlocks,
                 outputoverflow := s.outputoverflow ++ res.1,
                 chain := res.2 })
    else
      if p.length < 16 then none
      else
        let body := p.take (p.length - 16)
        let res := cbcEnc E s.chain body
        some (body.length, none,
          { s with inputoverflow := p.drop (p.length - 16),
                   outputoverflow := s.outputoverflow ++ res.1,
                   chain := res.2 })

/-- `AESCBCEncryptor.Read` with the caller's buffer abstracted by its length:
returns the bytes copied out, the error (`io.EOF` only when closed and
drained), and the updated state. -/
def encRead (s : EncState) (bufLen : Nat) : List Nat × Option GoErr × EncState :=
  if s.isClosed ∧ s.outputoverflow.length = 0 then
    ([], some GoErr.eof, s)
  else if bufLen ≥ s.outputoverflow.length then
    (s.outputoverflow, none, { s with outputoverflow := [] })
  else
    (s.outputoverflow.take bufLen, none, { s with outputoverflow := s.outputoverflow.drop bufLen })

/-- `AESCBCEncryptor.Close`: unconditionally pads the retained input overflow,
encrypts it, appends the result to the output overflow and sets the closed
flag.  Note the source has no already-closed guard and does not clear
`inputoverflow`. -/
def encClose (E : List Nat → List Nat) (s : EncState) : EncState :=
  let p := pkcs7Pad s.inputoverflow 16
  let res := cbcEnc E s.chain p
  { s with outputoverflow := s.outputoverflow ++ res.1,
           chain := res.2,
           isClosed := true }

/-- The mutable state of an `AESCBCDecryptor`, mirroring `EncState`. -/
structure DecState where
  inputoverflow : List Nat
  outputoverflow : List Nat
  chain : List Nat
  isClosed : Bool
deriving DecidableEq

/-- A freshly constructed decryptor (`NewAESCBCDecryptor`): empty overflow
buffers, chain seeded with the caller-supplied IV, open. -/
def decInit (iv : List Nat) : DecState :=
  { inputoverflow := [], outputoverflow := [], chain := iv, isClosed := false }

/-- `AESCBCDecryptor.Write`: combines the input overflow with the incoming
ciphertext, keeps any sub-block residue in the input overflow, decrypts the
whole blocks and appends the plaintext to the output overflow.  Unlike the
encryptor's `Write` it never slices out of range, so it is total. -/
def decWrite (D : List Nat → List Nat) (s : DecState) (input : List Nat) :
    Nat × Option GoErr × DecState :=
  if s.isClosed then
    (0, some GoErr.closedStream, s)
  else
    let p := s.inputoverflow ++ input
    if p.length % 16 ≠ 0 then
      let sizeFullBlocks := p.length / 16 * 16
      let body := p.take sizeFullBlocks
      let res := cbcDec D s.chain body
      (body.length, none,
        { s with inputoverflow := p.drop sizeFullBlocks,
                 outputoverflow := s.outputoverflow ++ res.1,
                 chain := res.2 })
    else
      let res := cbcDec D s.chain p
      (p.length, none,
        { s with inputoverflow := [],
                 outputoverflow := s.outputoverflow ++ res.1,
                 chain := res.2 })

/-- `AESCBCDecryptor.Read`.  While open the last 16 bytes are withheld; the Go
code computes `len(outputoverflow) - 16` as an `int`, so when fewer than 16
bytes are buffered the slice expression `outputoverflow[:len-16]` has a
negative bound and panics — modelled as `none`. -/
def decRead (s : DecState) (bufLen : Nat) : Option (List Nat × Option GoErr × DecState) :=
  if s.outputoverflow.length = 0 ∧ s.isClosed then
    some ([], some GoErr.eof, s)
  else
    let bytesToRetain : Nat := if s.isClosed then 0 else 16
    if s.outputoverflow.length < bytesToRetain then none
    else if bufLen ≥ s.outputoverflow.length - bytesToRetain then
      some (s.outputoverflow.take (s.outputoverflow.length - bytesToRetain), none,
        { s with outputoverflow := s.outputoverflow.drop (s.outputoverflow.length - bytesToRetain) })
    else
      some (s.outputoverflow.take bufLen, none,
        { s with outputoverflow := s.outputoverflow.drop bufLen })

/-- `AESCBCDecryptor.Close`: fails with the "not enough bytes" error when
fewer than 16 bytes of plaintext are buffered, otherwise unpads the buffered
output, propagating the padding error; only on success does it mutate the
state.  Note the source has no already-closed guard. -/
def decClose (s : DecState) : Option GoErr × DecState :=
  if s.outputoverflow.length < 16 then
    (some GoErr.insufficientData, s)
  else
    match pkcs7Unpad s.outputoverflow with
    | Except.error e => (some e, s)
    | Except.ok p => (none, { s with outputoverflow := p, isClosed := true })

/-- `Write` viewed as a state transformer, dropping the `(n, err)` part
(used to express multi-`Write` scenarios). -/
def encWriteSt (E : List Nat → List Nat) (s : EncState) (input : List Nat) : Option EncState :=
  (encWrite E s input).map (fun r => r.2.2)

/-- A sequence of `Write` calls on the encryptor, one chunk per call;
`none` as soon as one of them panics. -/
def encWrites (E : List Nat → List Nat) (s : EncState) : List (List Nat) → Option EncState
  | [] => some s
  | c :: cs =>
    match encWriteSt E s c with
    | none => none
    | some s1 => encWrites E s1 cs

/-- `Write` on the decryptor viewed as a state transformer. -/
def decWriteSt (D : List Nat → List Nat) (s : DecState) (input : List Nat) : DecState :=
  (decWrite D s input).2.2

/-- A sequence of `Write` calls on the decryptor, one chunk per call. -/
def decWrites (D : List Nat → List Nat) (s : DecState) : List (List Nat) → DecState
  | [] => s
  | c :: cs => decWrites D (decWriteSt D s c) cs

/-- Draining `Read` on the encryptor: one `Read` with a buffer as large as the
pending output (a further `Read` would only report `io.EOF`). -/
def encDrain (s : EncState) : List Nat :=
  (encRead s s.outputoverflow.length).1

/-- Ciphertext produced by writing `chunks` one `Write` call at a time to a
fresh encryptor, then `Close`, then a draining `Read`; `none` if a `Write`
panicked. -/
def encryptViaChunks (E : List Nat → List Nat) (iv : List Nat) (chunks : List (List Nat)) :
    Option (List Nat) :=
  (encWrites E (encInit iv) chunks).map (fun s => encDrain (encClose E s))

/-- The round trip of the spec: one `Write` of `P` to a fresh encryptor,
`Close`, draining `Read`; then one `Write` of the ciphertext to a fresh
decryptor with the same IV, `Close`, draining `Read`.  `none` on any panic or
error along the way. -/
def aescbcRoundTrip (E D : List Nat → List Nat) (iv P : List Nat) : Option (List Nat) :=
  match encWriteSt E (encInit iv) P with
  | none => none
  | some s1 =>
    let ct := encDrain (encClose E s1)
    let sd := decWriteSt D (decInit iv) ct
    match decClose sd with
    | (some _, _) => none
    | (none, sd2) =>
      match decRead sd2 sd2.outputoverflow.length with
      | none => none
      | some r => some r.1

/-- The length of the encryptor's pending input overflow as a function of the
total number of bytes successfully written: empty before any data, the
residue mod 16 when unaligned, one full block when aligned. -/
def encPendingLen (T : Nat) : Nat :=
  if T = 0 then 0 else if T % 16 = 0 then 16 else T % 16

/-! ### List helpers -/

theorem drop_append_add (l1 l2 : List Nat) (i : Nat) :
    (l1 ++ l2).drop (l1.length + i) = l2.drop i := by
  induction l1 with
  | nil => simp
  | cons x xs ih => simp [Nat.succ_add, ih]

theorem take_append_add (l1 l2 : List Nat) (i : Nat) :
    (l1 ++ l2).take (l1.length + i) = l1 ++ l2.take i := by
  induction l1 with
  | nil => simp
  | cons x xs ih => simpa [Nat.succ_add] using ih

theorem replicate_eq_concat (n a : Nat) (h : 1 ≤ n) :
    List.replicate n a = List.replicate (n - 1) a ++ [a] := by
  cases n with
  | zero => omega
  | succ m => simpa using List.replicate_succ' m a

theorem all_replicate_beq (n a : Nat) : (List.replicate n a).all (fun pc => pc == a) = true := by
  simp [List.all_eq_true, List.mem_replicate]

/-! ### Padding codec lemmas -/

theorem padLen_pos (L : Nat) : 1 ≤ 16 - L % 16 := by omega
theorem padLen_le (L : Nat) : 16 - L % 16 ≤ 16 := by omega

theorem pkcs7Pad_eq (data : List Nat) :
    pkcs7Pad data 16 =
      data ++ List.replicate (16 - data.length % 16) (16 - data.length % 16) := by
  have h : (16 - data.length % 16) % 256 = 16 - data.length % 16 :=
    Nat.mod_eq_of_lt (by omega)
  simp [pkcs7Pad, h]

theorem pkcs7Pad_length (data : List Nat) :
    (pkcs7Pad data 16).length = data.length + (16 - data.length % 16) := by
  simp [pkcs7Pad_eq]

theorem pkcs7Pad_length_dvd (data : List Nat) : 16 ∣ (pkcs7Pad data 16).length := by
  rw [pkcs7Pad_length]
  have h := Nat.div_add_mod data.length 16
  exact ⟨data.length / 16 + 1, by omega⟩

theorem pkcs7Pad_length_ge (data : List Nat) : 16 ≤ (pkcs7Pad data 16).length := by
  rcases pkcs7Pad_length_dvd data with ⟨k, hk⟩
  have := pkcs7Pad_length data
  have hpos : 1 ≤ 16 - data.length % 16 := padLen_pos _
  omega

theorem checkPaddingIsValid_pad (data : List Nat) :
    checkPaddingIsValid (pkcs7Pad data 16) (16 - data.length % 16) = true := by
  set n := 16 - data.length % 16 with hn
  rw [checkPaddingIsValid, if_neg (by rw [pkcs7Pad_length]; omega)]
  rw [pkcs7Pad_length, pkcs7Pad_eq, Nat.add_sub_cancel]
  rw [List.drop_left' rfl, ← hn]
  exact all_replicate_beq n n

theorem pkcs7Unpad_pkcs7Pad (data : List Nat) :
    pkcs7Unpad (pkcs7Pad data 16) = Except.ok data := by
  set n := 16 - data.length % 16 with hn
  have hn1 : 1 ≤ n := padLen_pos _
  have hlast : (pkcs7Pad data 16).getLastD 0 = n := by
    rw [pkcs7Pad_eq, ← hn, replicate_eq_concat n n hn1, ← List.append_assoc]
    exact List.getLastD_concat _ _ _
  rw [pkcs7Unpad, if_neg (by rw [pkcs7Pad_length]; omega)]
  simp only [hlast, checkPaddingIsValid_pad data, if_pos]
  rw [pkcs7Pad_length, Nat.add_sub_cancel, pkcs7Pad_eq, List.take_left' rfl]

/-! ### xor lemmas -/

theorem xorBlock_length (a b : List Nat) : (xorBlock a b).length = min a.length b.length := by
  simp [xorBlock]

theorem xorBlock_cancel : ∀ a b : List Nat, a.length = b.length →
    xorBlock (xorBlock a b) a = b := by
  intro a
  induction a with
  | nil => intro b h; cases b <;> simp_all [xorBlock]
  | cons x xs ih =>
    intro b h
    cases b with
    | nil => simp at h
    | cons y ys =>
      have hx : (x ^^^ y) ^^^ x = y := by
        rw [Nat.xor_comm x y, Nat.xor_assoc, Nat.xor_self, Nat.xor_zero]
      simp only [xorBlock] at ih ⊢
      show (x ^^^ y ^^^ x) :: List.zipWith Nat.xor (List.zipWith Nat.xor xs ys) xs = y :: ys
      rw [hx, ih ys (by simpa using h)]

/-! ### CBC mode lemmas -/

theorem cbcEncAux_fuel (E : List Nat → List Nat) :
    ∀ f g chain p, p.length ≤ f → p.length ≤ g →
      cbcEncAux E f chain p = cbcEncAux E g chain p := by
  intro f
  induction f with
  | zero =>
    intro g chain p hf _
    have hp : p = [] := by cases p <;> simp_all
    subst hp
    cases g <;> simp [cbcEncAux]
  | succ f ih =>
    intro g chain p hf hg
    cases p with
    | nil => cases g <;> simp [cbcEncAux]
    | cons x xs =>
      cases g with
      | zero => simp at hg
      | succ g' =>
        simp only [cbcEncAux]
        rw [ih g' _ _ (by simp at hf ⊢; omega) (by simp at hg ⊢; omega)]

theorem cbcEnc_block (E : List Nat → List Nat) (chain b r : List Nat) (hb : b.length = 16) :
    cbcEnc E chain (b ++ r) =
      (E (xorBlock chain b) ++ (cbcEnc E (E (xorBlock chain b)) r).1,
       (cbcEnc E (E (xorBlock chain b)) r).2) := by
  cases b with
  | nil => simp at hb
  | cons x xs =>
    have ht : (x :: (xs ++ r)).take 16 = x :: xs := by
      rw [show x :: (xs ++ r) = (x :: xs) ++ r by simp, List.take_left' hb]
    have hd : (x :: (xs ++ r)).drop 16 = r := by
      rw [show x :: (xs ++ r) = (x :: xs) ++ r by simp, List.drop_left' hb]
    show cbcEncAux E ((x :: xs ++ r).length) chain (x :: (xs ++ r)) = _
    simp only [List.cons_append, List.length_cons, cbcEncAux, ht, hd]
    rw [cbcEncAux_fuel E (List.append xs r).length r.length _ r (by simp) (Nat.le_refl _)]
    rfl

theorem cbcEnc_append (E : List Nat → List Nat) :
    ∀ n a b chain, a.length = n → 16 ∣ n →
      cbcEnc E chain (a ++ b) =
        ((cbcEnc E chain a).1 ++ (cbcEnc E (cbcEnc E chain a).2 b).1,
         (cbcEnc E (cbcEnc E chain a).2 b).2) := by
  intro n
  induction n using Nat.strong_induction_on with
  | _ n ih =>
    intro a b chain hlen hdvd
    cases a with
    | nil => simp [cbcEnc, cbcEncAux]
    | cons x xs =>
      have hlen' : xs.length + 1 = n := by simpa using hlen
      have h16 : 16 ≤ n := by
        rcases hdvd with ⟨k, hk⟩
        omega
      have hb1 : ((x :: xs).take 16).length = 16 := by simp; omega
      have ha : x :: xs = (x :: xs).take 16 ++ (x :: xs).drop 16 :=
        (List.take_append_drop 16 (x :: xs)).symm
      have hrl : ((x :: xs).drop 16).length = n - 16 := by simp; omega
      have hdvd' : 16 ∣ n - 16 := (Nat.dvd_sub' hdvd (Nat.dvd_refl 16))
      have hlt : n - 16 < n := by omega
      rw [ha, List.append_assoc]
      rw [cbcEnc_block E chain _ _ hb1, cbcEnc_block E chain _ _ hb1]
      rw [ih (n - 16) hlt _ b _ hrl hdvd']
      simp [List.append_assoc]

theorem cbcEnc_len (E : List Nat → List Nat) (hE : ∀ b, b.length = 16 → (E b).length = 16) :
    ∀ n a chain, a.length = n → 16 ∣ n → chain.length = 16 →
      (cbcEnc E chain a).1.length = a.length ∧ (cbcEnc E chain a).2.length = 16 := by
  intro n
  induction n using Nat.strong_induction_on with
  | _ n ih =>
    intro a chain hlen hdvd hch
    cases a with
    | nil =>
      constructor
      · simp [cbcEnc, cbcEncAux]
      · simpa [cbcEnc, cbcEncAux] using hch
    | cons x xs =>
      have hlen' : xs.length + 1 = n := by simpa using hlen
      have h16 : 16 ≤ n := by
        rcases hdvd with ⟨k, hk⟩
        omega
      have hb1 : ((x :: xs).take 16).length = 16 := by simp; omega
      have ha : x :: xs = (x :: xs).take 16 ++ (x :: xs).drop 16 :=
        (List.take_append_drop 16 (x :: xs)).symm
      have hrl : ((x :: xs).drop 16).length = n - 16 := by simp; omega
      have hdvd' : 16 ∣ n - 16 := Nat.dvd_sub' hdvd (Nat.dvd_refl 16)
      have hlt : n - 16 < n := by omega
      have hc : (E (xorBlock chain ((x :: xs).take 16))).length = 16 := by
        apply hE
        simp only [xorBlock_length, hch, hb1]
        omega
      have hrec := ih (n - 16) hlt ((x :: xs).drop 16) (E (xorBlock chain ((x :: xs).take 16)))
        hrl hdvd' hc
      rw [ha, cbcEnc_block E chain _ _ hb1]
      constructor
      · rw [List.length_append, List.length_append, hc, hrec.1, hb1, hrl]
      · exact hrec.2

theorem cbcDecAux_fuel (D : List Nat → List Nat) :
    ∀ f g chain p, p.length ≤ f → p.length ≤ g →
      cbcDecAux D f chain p = cbcDecAux D g chain p := by
  intro f
  induction f with
  | zero =>
    intro g chain p hf _
    have hp : p = [] := by cases p <;> simp_all
    subst hp
    cases g <;> simp [cbcDecAux]
  | succ f ih =>
    intro g chain p hf hg
    cases p with
    | nil => cases g <;> simp [cbcDecAux]
    | cons x xs =>
      cases g with
      | zero => simp at hg
      | succ g' =>
        simp only [cbcDecAux]
        rw [ih g' _ _ (by simp at hf ⊢; omega) (by simp at hg ⊢; omega)]

theorem cbcDec_block (D : List Nat → List Nat) (chain b r : List Nat) (hb : b.length = 16) :
    cbcDec D chain (b ++ r) =
      (xorBlock (D b) chain ++ (cbcDec D b r).1, (cbcDec D b r).2) := by
  cases b with
  | nil => simp at hb
  | cons x xs =>
    have ht : (x :: (xs ++ r)).take 16 = x :: xs := by
      rw [show x :: (xs ++ r) = (x :: xs) ++ r by simp, List.take_left' hb]
    have hd : (x :: (xs ++ r)).drop 16 = r := by
      rw [show x :: (xs ++ r) = (x :: xs) ++ r by simp, List.drop_left' hb]
    show cbcDecAux D ((x :: xs ++ r).length) chain (x :: (xs ++ r)) = _
    simp only [List.cons_append, List.length_cons, cbcDecAux, ht, hd]
    rw [cbcDecAux_fuel D (List.append xs r).length r.length _ r (by simp) (Nat.le_refl _)]
    rfl

theorem cbcDec_cbcEnc (E D : List Nat → List Nat)
    (hinv : ∀ b, b.length = 16 → D (E b) = b)
    (hE : ∀ b, b.length = 16 → (E b).length = 16) :
    ∀ n p chain, p.length = n → 16 ∣ n → chain.length = 16 →
      cbcDec D chain (cbcEnc E chain p).1 = (p, (cbcEnc E chain p).2) := by
  intro n
  induction n using Nat.strong_induction_on with
  | _ n ih =>
    intro p chain hlen hdvd hch
    cases p with
    | nil => simp [cbcEnc, cbcDec, cbcEncAux, cbcDecAux]
    | cons x xs =>
      have hlen' : xs.length + 1 = n := by simpa using hlen
      have h16 : 16 ≤ n := by
        rcases hdvd with ⟨k, hk⟩
        omega
      have hb1 : ((x :: xs).take 16).length = 16 := by simp; omega
      have ha : x :: xs = (x :: xs).take 16 ++ (x :: xs).drop 16 :=
        (List.take_append_drop 16 (x :: xs)).symm
      have hrl : ((x :: xs).drop 16).length = n - 16 := by simp; omega
      have hdvd' : 16 ∣ n - 16 := Nat.dvd_sub' hdvd (Nat.dvd_refl 16)
      have hlt : n - 16 < n := by omega
      have hxb : (xorBlock chain ((x :: xs).take 16)).length = 16 := by
        simp only [xorBlock_length, hch, hb1]
        omega
      have hc : (E (xorBlock chain ((x :: xs).take 16))).length = 16 := hE _ hxb
      rw [ha, cbcEnc_block E chain _ _ hb1]
      show cbcDec D chain
        (E (xorBlock chain ((x :: xs).take 16)) ++
          (cbcEnc E (E (xorBlock chain ((x :: xs).take 16))) ((x :: xs).drop 16)).1) = _
      rw [cbcDec_block D chain _ _ hc]
      rw [ih (n - 16) hlt ((x :: xs).drop 16) _ hrl hdvd' hc]
      rw [hinv _ hxb, xorBlock_cancel chain _ (by rw [hch, hb1])]

/-! ### Encryptor `Write` normal form -/

/-- The number of bytes of the combined buffer that one encryptor `Write`
encrypts: everything up to the last partial block when unaligned, everything
but one full block when aligned. -/
def cutoff (n : Nat) : Nat :=
  if n % 16 = 0 then n - 16 else n / 16 * 16

theorem cutoff_le (n : Nat) : cutoff n ≤ n := by
  unfold cutoff
  split <;> omega

theorem cutoff_dvd (n : Nat) : 16 ∣ cutoff n := by
  unfold cutoff
  by_cases h : n % 16 = 0
  · rw [if_pos h]
    exact Nat.dvd_sub' (Nat.dvd_of_mod_eq_zero h) (Nat.dvd_refl 16)
  · rw [if_neg h]
    exact Dvd.intro (n / 16) (Nat.mul_comm 16 (n / 16))

theorem sub_cutoff (n : Nat) (h : 1 ≤ n) :
    n - cutoff n = if n % 16 = 0 then 16 else n % 16 := by
  unfold cutoff
  split <;> omega

theorem sub_cutoff_pos (n : Nat) (h : 1 ≤ n) : 1 ≤ n - cutoff n := by
  rw [sub_cutoff n h]
  split <;> omega

theorem cutoff_add (k m : Nat) (hk : 16 ∣ k) (hm : 1 ≤ m) :
    cutoff (k + m) = k + cutoff m := by
  rcases hk with ⟨a, rfl⟩
  unfold cutoff
  have h1 : (16 * a + m) % 16 = m % 16 := by omega
  rw [h1]
  split <;> omega

theorem encWrite_open (E : List Nat → List Nat) (s : EncState) (input : List Nat)
    (hO : s.isClosed = false) (hp : s.inputoverflow ++ input ≠ []) :
    encWrite E s input =
      some (cutoff (s.inputoverflow ++ input).length, none,
        { s with
          inputoverflow :=
            (s.inputoverflow ++ input).drop (cutoff (s.inputoverflow ++ input).length),
          outputoverflow := s.outputoverflow ++
            (cbcEnc E s.chain
              ((s.inputoverflow ++ input).take (cutoff (s.inputoverflow ++ input).length))).1,
          chain := (cbcEnc E s.chain
            ((s.inputoverflow ++ input).take (cutoff (s.inputoverflow ++ input).length))).2 }) := by
  have hlen : (s.inputoverflow ++ input).length ≠ 0 := fun h => hp (List.length_eq_zero.mp h)
  rw [encWrite, if_neg (by rw [hO]; simp)]
  by_cases hmod : (s.inputoverflow ++ input).length % 16 = 0
  · have h16 : 16 ≤ (s.inputoverflow ++ input).length := by omega
    rw [if_neg (not_not_intro hmod), if_neg (by omega)]
    have hcut : cutoff (s.inputoverflow ++ input).length =
        (s.inputoverflow ++ input).length - 16 := by
      rw [cutoff, if_pos hmod]
    rw [hcut]
    have hbody : ((s.inputoverflow ++ input).take ((s.inputoverflow ++ input).length - 16)).length
        = (s.inputoverflow ++ input).length - 16 := by
      simp
    simp only [hbody]
  · rw [if_pos hmod]
    have hcut : cutoff (s.inputoverflow ++ input).length =
        (s.inputoverflow ++ input).length / 16 * 16 := by
      rw [cutoff, if_neg hmod]
    rw [hcut]
    have hbody : ((s.inputoverflow ++ input).take
        ((s.inputoverflow ++ input).length / 16 * 16)).length
        = (s.inputoverflow ++ input).length / 16 * 16 := by
      simp
      omega
    simp only [hbody]

theorem encWriteSt_open (E : List Nat → List Nat) (s : EncState) (input : List Nat)
    (hO : s.isClosed = false) (hp : s.inputoverflow ++ input ≠ []) :
    encWriteSt E s input =
      some { s with
        inputoverflow :=
          (s.inputoverflow ++ input).drop (cutoff (s.inputoverflow ++ input).length),
        outputoverflow := s.outputoverflow ++
          (cbcEnc E s.chain
            ((s.inputoverflow ++ input).take (cutoff (s.inputoverflow ++ input).length))).1,
        chain := (cbcEnc E s.chain
          ((s.inputoverflow ++ input).take (cutoff (s.inputoverflow ++ input).length))).2 } := by
  rw [encWriteSt, encWrite_open E s input hO hp]
  rfl

theorem drop_append_len (l1 l2 : List Nat) (k i : Nat) (h : l1.length = k) :
    (l1 ++ l2).drop (k + i) = l2.drop i := by
  subst h
  exact drop_append_add l1 l2 i

theorem take_append_len (l1 l2 : List Nat) (k i : Nat) (h : l1.length = k) :
    (l1 ++ l2).take (k + i) = l1 ++ l2.take i := by
  subst h
  exact take_append_add l1 l2 i

theorem encWriteSt_append (E : List Nat → List Nat) (s : EncState) (c1 c2 : List Nat)
    (hO : s.isClosed = false) (h1 : s.inputoverflow ++ c1 ≠ []) :
    (encWriteSt E s c1).bind (fun s1 => encWriteSt E s1 c2) = encWriteSt E s (c1 ++ c2) := by
  have hlen1 : 1 ≤ (s.inputoverflow ++ c1).length := by
    cases hc : s.inputoverflow ++ c1 with
    | nil => exact absurd hc h1
    | cons y ys => simp
  have htk : ((s.inputoverflow ++ c1).take (cutoff (s.inputoverflow ++ c1).length)).length =
      cutoff (s.inputoverflow ++ c1).length := by
    simp
    exact cutoff_le _
  have hdrop_ne : (s.inputoverflow ++ c1).drop (cutoff (s.inputoverflow ++ c1).length) ≠ [] := by
    intro hnil
    have h2 := sub_cutoff_pos (s.inputoverflow ++ c1).length hlen1
    have h3 : ((s.inputoverflow ++ c1).drop (cutoff (s.inputoverflow ++ c1).length)).length = 0 := by
      rw [hnil]
      rfl
    rw [List.length_drop] at h3
    omega
  rw [encWriteSt_open E s c1 hO h1, Option.some_bind]
  rw [encWriteSt_open E _ c2 (by exact hO)
    (fun h => hdrop_ne (List.append_eq_nil.mp h).1)]
  rw [encWriteSt_open E s (c1 ++ c2) hO
    (by rw [← List.append_assoc]; exact fun h => h1 (List.append_eq_nil.mp h).1)]
  have hp : s.inputoverflow ++ (c1 ++ c2) =
      (s.inputoverflow ++ c1).take (cutoff (s.inputoverflow ++ c1).length) ++
        ((s.inputoverflow ++ c1).drop (cutoff (s.inputoverflow ++ c1).length) ++ c2) := by
    conv_rhs => rw [← List.append_assoc, List.take_append_drop]
    rw [List.append_assoc]
  have hlen2 : 1 ≤ ((s.inputoverflow ++ c1).drop (cutoff (s.inputoverflow ++ c1).length)
      ++ c2).length := by
    cases hc : (s.inputoverflow ++ c1).drop (cutoff (s.inputoverflow ++ c1).length) with
    | nil => exact absurd hc hdrop_ne
    | cons y ys => simp
  have hklen : (s.inputoverflow ++ (c1 ++ c2)).length =
      cutoff (s.inputoverflow ++ c1).length +
        ((s.inputoverflow ++ c1).drop (cutoff (s.inputoverflow ++ c1).length) ++ c2).length := by
    rw [hp, List.length_append, htk]
  have hkcut : cutoff (s.inputoverflow ++ (c1 ++ c2)).length =
      cutoff (s.inputoverflow ++ c1).length +
        cutoff ((s.inputoverflow ++ c1).drop (cutoff (s.inputoverflow ++ c1).length)
          ++ c2).length := by
    rw [hklen, cutoff_add _ _ (cutoff_dvd _) hlen2]
  have hdropEq : (s.inputoverflow ++ (c1 ++ c2)).drop
      (cutoff (s.inputoverflow ++ (c1 ++ c2)).length) =
      ((s.inputoverflow ++ c1).drop (cutoff (s.inputoverflow ++ c1).length) ++ c2).drop
        (cutoff ((s.inputoverflow ++ c1).drop (cutoff (s.inputoverflow ++ c1).length)
          ++ c2).length) := by
    rw [hkcut, hp, drop_append_len _ _ _ _ htk]
  have htakeEq : (s.inputoverflow ++ (c1 ++ c2)).take
      (cutoff (s.inputoverflow ++ (c1 ++ c2)).length) =
      (s.inputoverflow ++ c1).take (cutoff (s.inputoverflow ++ c1).length) ++
        ((s.inputoverflow ++ c1).drop (cutoff (s.inputoverflow ++ c1).length) ++ c2).take
          (cutoff ((s.inputoverflow ++ c1).drop (cutoff (s.inputoverflow ++ c1).length)
            ++ c2).length) := by
    rw [hkcut, hp, take_append_len _ _ _ _ htk]
  have hencEq := cbcEnc_append E (cutoff (s.inputoverflow ++ c1).length)
    ((s.inputoverflow ++ c1).take (cutoff (s.inputoverflow ++ c1).length))
    (((s.inputoverflow ++ c1).drop (cutoff (s.inputoverflow ++ c1).length) ++ c2).take
      (cutoff ((s.inputoverflow ++ c1).drop (cutoff (s.inputoverflow ++ c1).length)
        ++ c2).length))
    s.chain htk (cutoff_dvd _)
  simp only [Option.some.injEq, htakeEq, hdropEq, hencEq, List.append_assoc]

theorem encWrite_panic (E : List Nat → List Nat) (s : EncState) (c : List Nat)
    (hO : s.isClosed = false) (hne : s.inputoverflow ++ c = []) :
    encWrite E s c = none := by
  rw [encWrite, if_neg (by rw [hO]; simp)]
  rw [hne]
  simp

theorem encWriteSt_isClosed (E : List Nat → List Nat) (s s1 : EncState) (c : List Nat)
    (h : encWriteSt E s c = some s1) : s1.isClosed = s.isClosed := by
  by_cases hC : s.isClosed = true
  · rw [encWriteSt, encWrite, if_pos hC] at h
    simp only [Option.map_some', Option.some.injEq] at h
    rw [← h]
  · have hO : s.isClosed = false := by simpa using hC
    by_cases hne : s.inputoverflow ++ c = []
    · rw [encWriteSt, encWrite_panic E s c hO hne] at h
      simp at h
    · rw [encWriteSt_open E s c hO hne] at h
      simp only [Option.some.injEq] at h
      rw [← h]

theorem encWrites_join (E : List Nat → List Nat) :
    ∀ chunks (s : EncState), chunks ≠ [] → s.isClosed = false →
      s.inputoverflow ++ chunks.head?.getD [] ≠ [] →
      encWrites E s chunks = encWriteSt E s chunks.flatten := by
  intro chunks
  induction chunks with
  | nil => intro s h; exact absurd rfl h
  | cons c cs ih =>
    intro s _ hO hfirst
    have hione : s.inputoverflow ++ c ≠ [] := by
      simpa using hfirst
    cases cs with
    | nil =>
      rw [encWrites, encWriteSt_open E s c hO hione]
      simp [encWrites, encWriteSt_open E s c hO hione]
    | cons c2 cs2 =>
      have hdrop_ne : (s.inputoverflow ++ c).drop (cutoff (s.inputoverflow ++ c).length)
          ≠ [] := by
        intro hnil
        have hlen1 : 1 ≤ (s.inputoverflow ++ c).length := by
          cases hc : s.inputoverflow ++ c with
          | nil => exact absurd hc hione
          | cons y ys => simp
        have h2 := sub_cutoff_pos (s.inputoverflow ++ c).length hlen1
        have h3 : ((s.inputoverflow ++ c).drop (cutoff (s.inputoverflow ++ c).length)).length
            = 0 := by
          rw [hnil]
          rfl
        rw [List.length_drop] at h3
        omega
      rw [show (c :: (c2 :: cs2)).flatten = c ++ (c2 :: cs2).flatten from rfl]
      rw [← encWriteSt_append E s c ((c2 :: cs2).flatten) hO hione]
      rw [encWrites, encWriteSt_open E s c hO hione]
      simp only [Option.some_bind]
      exact ih _ (by simp) (by exact hO)
        (fun h => hdrop_ne (List.append_eq_nil.mp h).1)

theorem encWriteSt_pending (E : List Nat → List Nat) (s s1 : EncState) (c : List Nat) (T : Nat)
    (hO : s.isClosed = false) (hpend : s.inputoverflow.length = encPendingLen T)
    (hw : encWriteSt E s c = some s1) :
    s1.inputoverflow.length = encPendingLen (T + c.length) := by
  by_cases hne : s.inputoverflow ++ c = []
  · rw [encWriteSt, encWrite_panic E s c hO hne] at hw
    simp at hw
  · rw [encWriteSt_open E s c hO hne] at hw
    simp only [Option.some.injEq] at hw
    have hge1 : 1 ≤ (s.inputoverflow ++ c).length := by
      cases hc : s.inputoverflow ++ c with
      | nil => exact absurd hc hne
      | cons y ys => simp
    have hsub := sub_cutoff (s.inputoverflow ++ c).length hge1
    have hn : (s.inputoverflow ++ c).length = s.inputoverflow.length + c.length :=
      List.length_append _ _
    rw [← hw]
    show ((s.inputoverflow ++ c).drop (cutoff (s.inputoverflow ++ c).length)).length = _
    rw [List.length_drop, hsub]
    unfold encPendingLen at hpend ⊢
    split_ifs at hpend ⊢ <;> omega

theorem encWrites_pending (E : List Nat → List Nat) :
    ∀ chunks (s s' : EncState) (T : Nat),
      s.isClosed = false → s.inputoverflow.length = encPendingLen T →
      encWrites E s chunks = some s' →
      s'.inputoverflow.length = encPendingLen (T + chunks.flatten.length) := by
  intro chunks
  induction chunks with
  | nil =>
    intro s s' T hO hpend h
    simp only [encWrites, Option.some.injEq] at h
    subst h
    simpa using hpend
  | cons c cs ih =>
    intro s s' T hO hpend h
    rw [encWrites] at h
    cases hw : encWriteSt E s c with
    | none =>
      rw [hw] at h
      simp at h
    | some s1 =>
      rw [hw] at h
      have h1 := encWriteSt_pending E s s1 c T hO hpend hw
      have hC1 : s1.isClosed = false := by rw [encWriteSt_isClosed E s s1 c hw, hO]
      have h2 := ih s1 s' (T + c.length) hC1 h1 h
      simpa [Nat.add_assoc] using h2

theorem decWriteSt_isOpen (D : List Nat → List Nat) (s : DecState) (c : List Nat)
    (hO : s.isClosed = false) :
    (decWriteSt D s c).isClosed = false ∧ (decWriteSt D s c).inputoverflow.length < 16 := by
  unfold decWriteSt decWrite
  rw [if_neg (by rw [hO]; simp)]
  by_cases hmod : (s.inputoverflow ++ c).length % 16 = 0
  · rw [if_neg (not_not_intro hmod)]
    exact ⟨hO, by simp⟩
  · rw [if_pos hmod]
    refine ⟨hO, ?_⟩
    show ((s.inputoverflow ++ c).drop ((s.inputoverflow ++ c).length / 16 * 16)).length < 16
    rw [List.length_drop]
    omega

theorem decWrites_inv (D : List Nat → List Nat) :
    ∀ chunks (s : DecState), s.isClosed = false → s.inputoverflow.length < 16 →
      (decWrites D s chunks).isClosed = false ∧
        (decWrites D s chunks).inputoverflow.length < 16 := by
  intro chunks
  induction chunks with
  | nil => intro s hO hlt; exact ⟨hO, hlt⟩
  | cons c cs ih =>
    intro s hO hlt
    rw [decWrites]
    have h := decWriteSt_isOpen D s c hO
    exact ih _ h.1 h.2

theorem encDrain_eq (s : EncState) : encDrain s = s.outputoverflow := by
  unfold encDrain encRead
  by_cases h1 : s.isClosed ∧ s.outputoverflow.length = 0
  · rw [if_pos h1]
    have h2 : s.outputoverflow = [] := List.length_eq_zero.mp h1.2
    simp [h2]
  · rw [if_neg h1, if_pos (le_refl _)]

theorem decWriteSt_aligned (D : List Nat → List Nat) (s : DecState) (input : List Nat)
    (hO : s.isClosed = false)
    (hmod : (s.inputoverflow ++ input).length % 16 = 0) :
    decWriteSt D s input =
      { s with inputoverflow := [],
               outputoverflow := s.outputoverflow ++
                 (cbcDec D s.chain (s.inputoverflow ++ input)).1,
               chain := (cbcDec D s.chain (s.inputoverflow ++ input)).2 } := by
  rw [decWriteSt, decWrite, if_neg (by rw [hO]; simp), if_neg (not_not_intro hmod)]

theorem decClose_ok (s : DecState) (q : List Nat) (hlen : 16 ≤ s.outputoverflow.length)
    (hunpad : pkcs7Unpad s.outputoverflow = Except.ok q) :
    decClose s = (none, { s with outputoverflow := q, isClosed := true }) := by
  rw [decClose, if_neg (by omega), hunpad]

theorem decRead_closed_all (s : DecState) (hC : s.isClosed = true)
    (hne : s.outputoverflow.length ≠ 0) :
    decRead s s.outputoverflow.length =
      some (s.outputoverflow, none, { s with outputoverflow := [] }) := by
  rw [decRead, if_neg (by simp [hne])]
  simp only [hC, if_true]
  rw [if_neg (by omega), if_pos (by omega)]
  simp

theorem pad_split (P : List Nat) (k : Nat) (hkdvd : 16 ∣ k) (hkle : k ≤ P.length) :
    P.take k ++ pkcs7Pad (P.drop k) 16 = pkcs7Pad P 16 := by
  rw [pkcs7Pad_eq, pkcs7Pad_eq]
  have hlen : (P.drop k).length = P.length - k := List.length_drop _ _
  have hmod : (P.drop k).length % 16 = P.length % 16 := by
    rcases hkdvd with ⟨a, rfl⟩
    rw [hlen]
    omega
  rw [hmod, ← List.append_assoc, List.take_append_drop]

/-- The full positive round trip: for any block permutation with a left
inverse, any 16-byte IV and any nonempty plaintext, one `Write` + `Close` +
drain on the encryptor followed by one `Write` + `Close` + drain on the
decryptor reproduces the plaintext.  (The empty plaintext is excluded: the
encryptor's `Write` panics on it, see the C1 analysis.) -/
theorem aescbcRoundTrip_ok (E D : List Nat → List Nat) (iv P : List Nat)
    (hinv : ∀ b, b.length = 16 → D (E b) = b)
    (hE : ∀ b, b.length = 16 → (E b).length = 16)
    (hiv : iv.length = 16) (hP : P ≠ []) :
    aescbcRoundTrip E D iv P = some P := by
  have hPlen : 1 ≤ P.length := by
    cases hc : P with
    | nil => exact absurd hc hP
    | cons y ys => simp
  have hkle : cutoff P.length ≤ P.length := cutoff_le _
  have hkdvd : 16 ∣ cutoff P.length := cutoff_dvd _
  have htk : (P.take (cutoff P.length)).length = cutoff P.length := by
    simp [hkle]
  have hpadsplit : P.take (cutoff P.length) ++ pkcs7Pad (P.drop (cutoff P.length)) 16 =
      pkcs7Pad P 16 := pad_split P (cutoff P.length) hkdvd hkle
  have henc := cbcEnc_append E (cutoff P.length) (P.take (cutoff P.length))
    (pkcs7Pad (P.drop (cutoff P.length)) 16) iv htk hkdvd
  rw [hpadsplit] at henc
  have h1 : (encInit iv).inputoverflow ++ P ≠ [] := by
    simpa [encInit] using hP
  have hw := encWriteSt_open E (encInit iv) P (by rfl) h1
  simp only [encInit, List.nil_append] at hw
  have hclose : encClose E
      { inputoverflow := P.drop (cutoff P.length),
        outputoverflow := (cbcEnc E iv (P.take (cutoff P.length))).1,
        chain := (cbcEnc E iv (P.take (cutoff P.length))).2,
        isClosed := false } =
      { inputoverflow := P.drop (cutoff P.length),
        outputoverflow := (cbcEnc E iv (pkcs7Pad P 16)).1,
        chain := (cbcEnc E iv (pkcs7Pad P 16)).2,
        isClosed := true } := by
    rw [encClose, henc]
  have hctlen : (cbcEnc E iv (pkcs7Pad P 16)).1.length = (pkcs7Pad P 16).length :=
    (cbcEnc_len E hE (pkcs7Pad P 16).length (pkcs7Pad P 16) iv rfl
      (pkcs7Pad_length_dvd P) hiv).1
  have hmodct : ((decInit iv).inputoverflow ++ (cbcEnc E iv (pkcs7Pad P 16)).1).length % 16
      = 0 := by
    simp only [decInit, List.nil_append]
    rw [hctlen]
    rcases pkcs7Pad_length_dvd P with ⟨a, hA⟩
    omega
  have hdecval : cbcDec D iv ((cbcEnc E iv (pkcs7Pad P 16)).1) =
      (pkcs7Pad P 16, (cbcEnc E iv (pkcs7Pad P 16)).2) :=
    cbcDec_cbcEnc E D hinv hE (pkcs7Pad P 16).length (pkcs7Pad P 16) iv rfl
      (pkcs7Pad_length_dvd P) hiv
  have hsd : decWriteSt D (decInit iv) ((cbcEnc E iv (pkcs7Pad P 16)).1) =
      { inputoverflow := [], outputoverflow := pkcs7Pad P 16,
        chain := (cbcEnc E iv (pkcs7Pad P 16)).2, isClosed := false } := by
    rw [decWriteSt_aligned D (decInit iv) _ (by rfl) hmodct]
    simp only [decInit, List.nil_append]
    rw [hdecval]
  have hcl : decClose
      { inputoverflow := [], outputoverflow := pkcs7Pad P 16,
        chain := (cbcEnc E iv (pkcs7Pad P 16)).2, isClosed := false } =
      (none,
        { inputoverflow := [], outputoverflow := P,
          chain := (cbcEnc E iv (pkcs7Pad P 16)).2, isClosed := true }) := by
    exact decClose_ok _ P (pkcs7Pad_length_ge P) (pkcs7Unpad_pkcs7Pad P)
  have hrd := decRead_closed_all
    { inputoverflow := [], outputoverflow := P,
      chain := (cbcEnc E iv (pkcs7Pad P 16)).2, isClosed := true }
    rfl (by simpa using fun h => hP (List.length_eq_zero.mp h))
  simp only [aescbcRoundTrip, encInit, hw]
  rw [hclose, encDrain_eq]
  simp only []
  rw [hsd, hcl]
  simp only []
  rw [hrd]

/-! ### Tampered-padding lemmas -/

theorem tamperLast_getLast (b : List Nat) (v : Nat) : (tamperLast b v).getLastD 0 = v :=
  List.getLastD_concat _ _ _

theorem tamperLast_length (b : List Nat) (v : Nat) (hb : b ≠ []) :
    (tamperLast b v).length = b.length := by
  have hlen : 1 ≤ b.length := by
    cases hc : b with
    | nil => exact absurd hc hb
    | cons y ys => simp
  rw [tamperLast, List.length_append, List.length_dropLast]
  simp
  omega

theorem pkcs7Unpad_eq_of (input : List Nat) (v : Nat) (hne : input.length ≠ 0)
    (hlast : input.getLastD 0 = v) :
    pkcs7Unpad input = if checkPaddingIsValid input v
      then Except.ok (input.take (input.length - v))
      else Except.error GoErr.paddingError := by
  rw [pkcs7Unpad, if_neg hne, hlast]

/-! ### Claim theorems -/

/-- C1.  The round trip claim includes plaintexts of length 0, but writing the
empty byte sequence to a fresh encryptor panics in Go (`p[len(p)-16:]` with
`len(p) = 0` in `AESCBCEncryptor.Write`), so the round-trip pipeline aborts
(`none`) instead of reproducing the empty plaintext.  (For every nonempty
plaintext the round trip does hold: see `aescbcRoundTrip_ok`.) -/
theorem c1_roundtrip_empty_write_panics :
    aescbcRoundTrip (fun b => b) (fun b => b) (List.replicate 16 0) [] = none := by
  decide

/-- C2.  For data of length at most 3 * 16, `Pkcs7Unpad (Pkcs7Pad data 16)`
returns the data unchanged with no error, and `Pkcs7Pad` appends between 1 and
16 bytes, each having the number of appended bytes as its value. -/
theorem c2_pad_unpad (data : List Nat) (h : data.length ≤ 48) :
    pkcs7Unpad (pkcs7Pad data 16) = Except.ok data ∧
      ∃ n, 1 ≤ n ∧ n ≤ 16 ∧ pkcs7Pad data 16 = data ++ List.replicate n n :=
  ⟨pkcs7Unpad_pkcs7Pad data,
    ⟨16 - data.length % 16, padLen_pos _, padLen_le _, pkcs7Pad_eq data⟩⟩

theorem c2_pad_unpad_witness :
    pkcs7Unpad (pkcs7Pad (List.replicate 17 3) 16) = Except.ok (List.replicate 17 3) ∧
      ∃ n, 1 ≤ n ∧ n ≤ 16 ∧
        pkcs7Pad (List.replicate 17 3) 16 =
          List.replicate 17 3 ++ List.replicate n n :=
  c2_pad_unpad (List.replicate 17 3) (by decide)

/-- C3 counterexample.  Setting the final byte of a correctly padded buffer to
0 — a value outside [1, 16] — does NOT make `Pkcs7Unpad` fail: the validation
loop over the last 0 bytes is vacuous, so the whole tampered buffer is
returned with no error, contradicting the claim. -/
theorem c3_counterexample :
    pkcs7Unpad (tamperLast (pkcs7Pad [] 16) 0) =
      Except.ok (tamperLast (pkcs7Pad [] 16) 0) := by
  decide

/-- C3 amended.  Changing the final byte of `Pkcs7Pad data 16` to `v`:
(1) if `v` is in [1, 16] and the last `v` bytes are not all `v`, `Pkcs7Unpad`
returns the padding error; (2) if `v = 0`, `Pkcs7Unpad` succeeds and returns
the entire tampered buffer; (3) if `v` exceeds the buffer length, `Pkcs7Unpad`
returns the padding error.  (For `v` in [17, 255] not exceeding the length the
check degenerates to comparing the last `v` bytes with `v`, which a crafted
buffer can satisfy.) -/
theorem c3_tamper_detection (data : List Nat) (v : Nat) :
    (1 ≤ v → v ≤ 16 →
      ((tamperLast (pkcs7Pad data 16) v).drop
          ((tamperLast (pkcs7Pad data 16) v).length - v)).all (fun pc => pc == v) = false →
      pkcs7Unpad (tamperLast (pkcs7Pad data 16) v) = Except.error GoErr.paddingError) ∧
    (v = 0 →
      pkcs7Unpad (tamperLast (pkcs7Pad data 16) v) =
        Except.ok (tamperLast (pkcs7Pad data 16) v)) ∧
    ((tamperLast (pkcs7Pad data 16) v).length < v →
      pkcs7Unpad (tamperLast (pkcs7Pad data 16) v) = Except.error GoErr.paddingError) := by
  have hpadne : pkcs7Pad data 16 ≠ [] := by
    intro h
    have := pkcs7Pad_length_ge data
    rw [h] at this
    simp at this
  have hlen : (tamperLast (pkcs7Pad data 16) v).length = (pkcs7Pad data 16).length :=
    tamperLast_length _ v hpadne
  have hge : 16 ≤ (tamperLast (pkcs7Pad data 16) v).length := by
    rw [hlen]
    exact pkcs7Pad_length_ge data
  have hne : (tamperLast (pkcs7Pad data 16) v).length ≠ 0 := by omega
  have hlast := tamperLast_getLast (pkcs7Pad data 16) v
  refine ⟨?_, ?_, ?_⟩
  · intro h1 h16 hall
    have hcheck : checkPaddingIsValid (tamperLast (pkcs7Pad data 16) v) v = false := by
      rw [checkPaddingIsValid, if_neg (by omega), hall]
    rw [pkcs7Unpad_eq_of _ v hne hlast, if_neg (by rw [hcheck]; simp)]
  · intro h0
    subst h0
    have hcheck : checkPaddingIsValid (tamperLast (pkcs7Pad data 16) 0) 0 = true := by
      rw [checkPaddingIsValid, if_neg (by omega), Nat.sub_zero, List.drop_length]
      rfl
    rw [pkcs7Unpad_eq_of _ 0 hne hlast, if_pos hcheck, Nat.sub_zero, List.take_length]
  · intro hlt
    have hcheck : checkPaddingIsValid (tamperLast (pkcs7Pad data 16) v) v = false := by
      rw [checkPaddingIsValid, if_pos hlt]
    rw [pkcs7Unpad_eq_of _ v hne hlast, if_neg (by rw [hcheck]; simp)]

theorem c3_tamper_detection_witness :
    pkcs7Unpad (tamperLast (pkcs7Pad [] 16) 5) = Except.error GoErr.paddingError :=
  (c3_tamper_detection [] 5).1 (by decide) (by decide) (by decide)

/-- C4.  There is no already-closed guard in `AESCBCEncryptor.Close`: a second
`Close` pads and encrypts the retained buffer again and appends 16 more bytes
to the readable ciphertext, so `Close` after `Close` is neither a no-op nor an
error and does change OutputOverflow, contradicting the claim (which the code
was required to satisfy). -/
theorem c4_double_close_modifies_output :
    (encClose (fun b => b) (encClose (fun b => b)
        (encInit (List.replicate 16 0)))).outputoverflow ≠
      (encClose (fun b => b) (encInit (List.replicate 16 0))).outputoverflow := by
  decide

/-- C5 counterexample.  After one successful `Write` of a single byte the
encryptor's InputOverflow holds 1 byte, not one full block of 16, refuting
"always holds exactly one full block (16 bytes)". -/
theorem c5_counterexample :
    (encWrites (fun b => b) (encInit (List.replicate 16 0)) [[7]]).map
      (fun s => s.inputoverflow.length) ≠ some 16 := by
  decide

/-- C5 amended.  Over every state reachable by successful `Write` calls: the
decryptor's InputOverflow length is always strictly less than 16 (as claimed),
while the encryptor's InputOverflow length equals `encPendingLen T` for the
total `T` of bytes written: 0 before any data, `T mod 16` when `T` is not
block-aligned, and exactly one full block (16) only when `T` is a positive
multiple of 16. -/
theorem c5_overflow_invariant (E D : List Nat → List Nat) (iv : List Nat)
    (chunks : List (List Nat)) (s' : EncState) :
    (decWrites D (decInit iv) chunks).inputoverflow.length < 16 ∧
      (encWrites E (encInit iv) chunks = some s' →
        s'.inputoverflow.length = encPendingLen chunks.flatten.length) := by
  constructor
  · exact (decWrites_inv D chunks (decInit iv) rfl (by simp [decInit])).2
  · intro h
    have h2 := encWrites_pending E chunks (encInit iv) s' 0 rfl
      (by simp [encInit, encPendingLen]) h
    simpa using h2

theorem c5_overflow_invariant_witness :
    (decWrites (fun b => b) (decInit (List.replicate 16 0)) [[7]]).inputoverflow.length < 16 ∧
      ({ inputoverflow := [7], outputoverflow := [], chain := List.replicate 16 0,
         isClosed := false } : EncState).inputoverflow.length =
        encPendingLen ([[7]] : List (List Nat)).flatten.length := by
  have h := c5_overflow_invariant (fun b => b) (fun b => b) (List.replicate 16 0) [[7]]
    { inputoverflow := [7], outputoverflow := [], chain := List.replicate 16 0,
      isClosed := false }
  exact ⟨h.1, h.2 (by decide)⟩

/-- C6.  The decryptor's `Read` while fewer than 16 bytes are buffered (here:
a fresh decryptor with nothing buffered) panics in Go — the withheld-tail
arithmetic `outputoverflow[:len-16]` produces a negative slice bound — instead
of returning zero bytes with a nil error as the claim (and the function's own
doc comment) requires. -/
theorem c6_read_panics_on_fresh_decryptor :
    decRead (decInit (List.replicate 16 0)) 5 = none := by
  decide

/-- C7.  `Write` on a closed encryptor or decryptor returns the closed-stream
error with `n = 0` and leaves the entire state (both overflow buffers and the
chain) unchanged. -/
theorem c7_write_after_close (E D : List Nat → List Nat) (se : EncState) (sd : DecState)
    (pe pd : List Nat) (he : se.isClosed = true) (hd : sd.isClosed = true) :
    encWrite E se pe = some (0, some GoErr.closedStream, se) ∧
      decWrite D sd pd = (0, some GoErr.closedStream, sd) := by
  constructor
  · rw [encWrite, if_pos he]
  · rw [decWrite, if_pos hd]

theorem c7_write_after_close_witness :
    encWrite (fun b => b)
        { inputoverflow := [1], outputoverflow := [2], chain := List.replicate 16 0,
          isClosed := true } [9] =
      some (0, some GoErr.closedStream,
        { inputoverflow := [1], outputoverflow := [2], chain := List.replicate 16 0,
          isClosed := true }) ∧
    decWrite (fun b => b)
        { inputoverflow := [3], outputoverflow := [4], chain := List.replicate 16 0,
          isClosed := true } [9] =
      (0, some GoErr.closedStream,
        { inputoverflow := [3], outputoverflow := [4], chain := List.replicate 16 0,
          isClosed := true }) :=
  c7_write_after_close (fun b => b) (fun b => b) _ _ [9] [9] rfl rfl

/-- C8.  `AESCBCDecryptor.Close` with fewer than 16 buffered plaintext bytes
fails with the insufficient-data error (leaving the state unchanged); with at
least 16 bytes it applies `Pkcs7Unpad` to the buffered output, propagating the
padding error on malformed padding and otherwise replacing the buffer with the
unpadded data and closing the stream. -/
theorem c8_decryptor_close (s : DecState) (e : GoErr) (q : List Nat) :
    (s.outputoverflow.length < 16 → decClose s = (some GoErr.insufficientData, s)) ∧
      (16 ≤ s.outputoverflow.length → pkcs7Unpad s.outputoverflow = Except.error e →
        decClose s = (some e, s)) ∧
      (16 ≤ s.outputoverflow.length → pkcs7Unpad s.outputoverflow = Except.ok q →
        decClose s = (none, { s with outputoverflow := q, isClosed := true })) := by
  refine ⟨?_, ?_, ?_⟩
  · intro h
    rw [decClose, if_pos h]
  · intro h hu
    rw [decClose, if_neg (by omega), hu]
  · intro h hu
    rw [decClose, if_neg (by omega), hu]

theorem c8_decryptor_close_witness :
    decClose (decInit (List.replicate 16 0)) =
        (some GoErr.insufficientData, decInit (List.replicate 16 0)) ∧
      decClose
          { inputoverflow := [], outputoverflow := List.replicate 15 2 ++ [17],
            chain := List.replicate 16 0, isClosed := false } =
        (some GoErr.paddingError,
          { inputoverflow := [], outputoverflow := List.replicate 15 2 ++ [17],
            chain := List.replicate 16 0, isClosed := false }) := by
  constructor
  · exact (c8_decryptor_close (decInit (List.replicate 16 0)) GoErr.paddingError []).1
      (by decide)
  · exact (c8_decryptor_close _ GoErr.paddingError []).2.1 (by decide) (by decide)

/-- C9 counterexample.  Splitting the payload `[7]` as the chunks `[], [7]`
makes the first `Write` call panic (empty combined buffer on a fresh
encryptor), so the chunked run produces no ciphertext while the single-`Write`
run succeeds: the two are not byte-identical as the claim requires for every
way of splitting. -/
theorem c9_counterexample :
    encryptViaChunks (fun b => b) (List.replicate 16 0) [[], [7]] ≠
      encryptViaChunks (fun b => b) (List.replicate 16 0) [[7]] := by
  decide

/-- C9 amended.  For every nonempty payload `P` and every way of splitting `P`
into consecutive chunks — empty chunks allowed — whose first chunk is
nonempty, writing the chunks one `Write` call at a time and closing produces
exactly the ciphertext of a single `Write` of `P` followed by closing, for the
same cipher and IV.  (Only a split whose first chunk is empty is excluded:
there the first `Write`'s combined buffer is empty and the encryptor panics;
once any data has been written the retained input overflow is nonempty, so a
later empty `Write` is harmless.) -/
theorem c9_streaming_equivalence (E : List Nat → List Nat) (iv P : List Nat)
    (chunks : List (List Nat)) (hP : P ≠ []) (hjoin : chunks.flatten = P)
    (hfirst : chunks.head? ≠ some []) :
    encryptViaChunks E iv chunks = encryptViaChunks E iv [P] := by
  have hchne : chunks ≠ [] := by
    intro h
    rw [h] at hjoin
    exact hP hjoin.symm
  have hhead : (encInit iv).inputoverflow ++ chunks.head?.getD [] ≠ [] := by
    cases hc : chunks with
    | nil => exact absurd hc hchne
    | cons c cs =>
      have hcne : c ≠ [] := by
        intro h
        rw [hc, h] at hfirst
        exact hfirst rfl
      simpa [encInit] using hcne
  have h2 : ∀ s : EncState, encWrites E s [P] = encWriteSt E s P := by
    intro s
    rw [encWrites]
    cases h : encWriteSt E s P <;> simp [encWrites]
  unfold encryptViaChunks
  rw [h2, encWrites_join E chunks (encInit iv) hchne rfl hhead, hjoin]

theorem c9_streaming_equivalence_witness :
    encryptViaChunks (fun b => b) (List.replicate 16 0) [[1], [], [2, 3]] =
      encryptViaChunks (fun b => b) (List.replicate 16 0) [[1, 2, 3]] :=
  c9_streaming_equivalence (fun b => b) (List.replicate 16 0) [1, 2, 3] [[1], [], [2, 3]]
    (by decide) (by decide) (by decide)

/-- C10.  Whenever `AESCBCDecryptor.Close` returns an error (insufficient
data, or a padding error from `Pkcs7Unpad`), the decryptor state is unchanged:
it stays open with the same buffers, so subsequent `Write` and `Read` calls
behave exactly as if `Close` had never been called. -/
theorem c10_close_error_preserves (s : DecState) (D : List Nat → List Nat)
    (p : List Nat) (n : Nat) (e : GoErr) (h : (decClose s).1 = some e) :
    (decClose s).2 = s ∧ decWrite D (decClose s).2 p = decWrite D s p ∧
      decRead (decClose s).2 n = decRead s n := by
  have hs : (decClose s).2 = s := by
    rw [decClose] at h ⊢
    by_cases h1 : s.outputoverflow.length < 16
    · rw [if_pos h1]
    · rw [if_neg h1] at h ⊢
      cases hu : pkcs7Unpad s.outputoverflow with
      | error e2 => rfl
      | ok q =>
        rw [hu] at h
        simp at h
  exact ⟨hs, by rw [hs], by rw [hs]⟩

theorem c10_close_error_preserves_witness :
    (decClose (decInit (List.replicate 16 0))).2 = decInit (List.replicate 16 0) ∧
      decWrite (fun b => b) (decClose (decInit (List.replicate 16 0))).2 [5] =
        decWrite (fun b => b) (decInit (List.replicate 16 0)) [5] ∧
      decRead (decClose (decInit (List.replicate 16 0))).2 3 =
        decRead (decInit (List.replicate 16 0)) 3 :=
  c10_close_error_preserves (decInit (List.replicate 16 0)) (fun b => b) [5] 3
    GoErr.insufficientData (by decide)

end Aescbc
